import Mathlib

/-
Verification of the Technical Analysis Engine of the Financial-Advisor-Agent
repository (src/tools/yf_tech_analysis.py).

The engine's `_run` method fetches a price history, validates that it holds at
least 50 bars, computes indicator series (SMA, RSI, MACD, ATR) through a
pluggable indicator backend, detects price extrema with
`scipy.signal.find_peaks(..., distance=20)`, derives support/resistance levels
from the last troughs/peaks, classifies three chart patterns from the extrema
geometry, and assembles either a full report dictionary or an error
dictionary.

This file gives a shallow embedding of that pipeline over exact rationals:
prices are `ℚ`, a missing value (NaN warm-up marker) is `Option.none`, and the
tool result is an inductive that is either a full report or an error message.
-/

set_option maxHeartbeats 1000000

namespace TechAnalysis

/-- Close-price lookup with positional indexing as on a numpy array; an
out-of-range read defaults to 0 (every actual read below is guarded to be in
range by the surrounding code, as in the source). -/
def getQ (x : List ℚ) (i : Nat) : ℚ := x.getD i 0

/-! ### scipy.signal.find_peaks, as called by the source

The source detects extrema with `find_peaks(close, distance=20)` and
`find_peaks(-close, distance=20)`.  With only the `distance` argument given,
scipy (1) collects local maxima, where a flat plateau that rises on the left
and falls on the right contributes the midpoint `(left + right) // 2` of the
plateau, and (2) filters the candidates by minimal index distance: candidates
are visited from highest to lowest height, and a visited candidate that is
still kept discards every other candidate closer than `distance` to it.
Height ties are visited in a deterministic (stable-sort) order here; the tie
order is unspecified in the reference implementation. -/

/-- End of a plateau of value `v` that starts at index `k`: the first index
`t ≥ k` with `t = iMax` or `x[t] ≠ v` (the inner while-loop of scipy's
`_local_maxima_1d`). -/
def plateauEnd (x : List ℚ) (iMax : Nat) (v : ℚ) (k : Nat) : Nat :=
  k + ((List.range' k (iMax - k)).takeWhile (fun t => decide (getQ x t = v))).length

/-- Main loop of scipy's `_local_maxima_1d`, scanning `i` from 1 while
`i < iMax` where `iMax` is the last index of the series; the first argument is
recursion fuel (the loop advances `i` by at least one per step, so fuel
`x.length` is always enough). -/
def lmAux (x : List ℚ) (iMax : Nat) : Nat → Nat → List Nat
  | 0, _ => []
  | fuel + 1, i =>
    if i < iMax then
      if getQ x (i - 1) < getQ x i then
        let iAhead := plateauEnd x iMax (getQ x i) (i + 1)
        if getQ x iAhead < getQ x i then
          (i + (iAhead - 1)) / 2 :: lmAux x iMax fuel (iAhead + 1)
        else
          lmAux x iMax fuel (i + 1)
      else
        lmAux x iMax fuel (i + 1)
    else []

/-- Indices of the local maxima of `x` (scipy `_local_maxima_1d`). -/
def localMaxima (x : List ℚ) : List Nat := lmAux x (x.length - 1) x.length 1

/-- Left-going kill loop of scipy's `_select_by_peak_distance`: starting just
below position `k` and walking down, discard candidates closer than `d` to the
visited peak at index `pj`, stopping at the first one far enough away. -/
def killLeft (peaks : List Nat) (d : Nat) (pj : Int) : Nat → List Bool → List Bool
  | 0, keep => keep
  | k + 1, keep =>
    if pj - (peaks.getD k 0 : Int) < (d : Int) then
      killLeft peaks d pj k (keep.set k false)
    else keep

/-- Right-going kill loop of scipy's `_select_by_peak_distance`: starting at
position `k` and walking up while `c` positions remain, discard candidates
closer than `d` to the visited peak at index `pj`, stopping at the first one
far enough away. -/
def killRight (peaks : List Nat) (d : Nat) (pj : Int) : Nat → Nat → List Bool → List Bool
  | 0, _, keep => keep
  | c + 1, k, keep =>
    if (peaks.getD k 0 : Int) - pj < (d : Int) then
      killRight peaks d pj c (k + 1) (keep.set k false)
    else keep

/-- Candidate positions sorted by ascending priority (peak height), stable in
the original position order on ties (the `argsort` of the reference). -/
def argsortAsc (priority : List ℚ) : List Nat :=
  List.insertionSort (fun i j => priority.getD i 0 ≤ priority.getD j 0)
    (List.range priority.length)

/-- One step of the distance filter: if the candidate at position `j` is still
kept, discard every other candidate closer than `d` bars to it. -/
def distStep (peaks : List Nat) (d : Nat) (keep : List Bool) (j : Nat) : List Bool :=
  if keep.getD j false then
    killRight peaks d (peaks.getD j 0) (peaks.length - (j + 1)) (j + 1)
      (killLeft peaks d (peaks.getD j 0) j keep)
  else keep

/-- scipy's `_select_by_peak_distance`: visit candidates from highest priority
to lowest, each kept candidate discarding its too-close neighbours. -/
def selectByPeakDistance (peaks : List Nat) (priority : List ℚ) (d : Nat) : List Bool :=
  (argsortAsc priority).reverse.foldl (distStep peaks d)
    (List.replicate peaks.length true)

/-- scipy `find_peaks(x, distance)`: indices of the local maxima of `x` that
survive the minimal-distance filter, in ascending index order. -/
def find_peaks (x : List ℚ) (distance : Nat) : List Nat :=
  let mids := localMaxima x
  let keep := selectByPeakDistance mids (mids.map (getQ x)) distance
  (mids.enum.filter fun p => keep.getD p.1 false).map Prod.snd

/-- Peak indices of a close series exactly as the source computes them:
`find_peaks(close_prices, distance=20)`. -/
def peaksOf (close : List ℚ) : List Nat := find_peaks close 20

/-- Trough indices of a close series exactly as the source computes them:
`find_peaks(-close_prices, distance=20)`. -/
def troughsOf (close : List ℚ) : List Nat := find_peaks (close.map Neg.neg) 20

/-! ### Pattern classifiers (source methods `is_head_and_shoulders`,
`is_double_top`, `is_double_bottom`, `identify_chart_patterns`) -/

/-- Source `is_head_and_shoulders`: with at least three peaks, take the last
three as (left shoulder, head, right shoulder) and require the head price to
strictly exceed both shoulder prices. -/
def is_head_and_shoulders (close : List ℚ) : Bool :=
  let peaks := peaksOf close
  if 3 ≤ peaks.length then
    let ls := peaks.getD (peaks.length - 3) 0
    let hd := peaks.getD (peaks.length - 2) 0
    let rs := peaks.getD (peaks.length - 1) 0
    decide (getQ close ls < getQ close hd ∧ getQ close rs < getQ close hd)
  else false

/-- Source `is_double_top`: with at least two peaks, require
`|close[peaks[-1]] - close[peaks[-2]]| / close[peaks[-2]] < 0.03`.  When the
divisor is zero, the numpy float quotient is inf or NaN and the strict
comparison is false, which the explicit `≠ 0` guard reproduces over `ℚ`. -/
def is_double_top (close : List ℚ) : Bool :=
  let peaks := peaksOf close
  if 2 ≤ peaks.length then
    let a := getQ close (peaks.getD (peaks.length - 1) 0)
    let b := getQ close (peaks.getD (peaks.length - 2) 0)
    decide (b ≠ 0 ∧ |a - b| / b < 3 / 100)
  else false

/-- Source `is_double_bottom`: the same 3% rule on the last two troughs of the
negated series, prices read off the original close series. -/
def is_double_bottom (close : List ℚ) : Bool :=
  let troughs := troughsOf close
  if 2 ≤ troughs.length then
    let a := getQ close (troughs.getD (troughs.length - 1) 0)
    let b := getQ close (troughs.getD (troughs.length - 2) 0)
    decide (b ≠ 0 ∧ |a - b| / b < 3 / 100)
  else false

/-- Source `identify_chart_patterns`: the three rules evaluated independently,
appending their labels in a fixed order. -/
def identify_chart_patterns (close : List ℚ) : List String :=
  (if is_head_and_shoulders close then ["Head and Shoulders"] else []) ++
    (if is_double_top close then ["Double Top"] else []) ++
      (if is_double_bottom close then ["Double Bottom"] else [])

/-! ### Support / resistance levels (source `_run`, level derivation) -/

/-- Source expression `close_prices[troughs][-3:] if len(troughs) >= 3 else
close_prices[troughs]`. -/
def supportLevels (close : List ℚ) : List ℚ :=
  let troughs := troughsOf close
  let prices := troughs.map (getQ close)
  if 3 ≤ troughs.length then prices.drop (prices.length - 3) else prices

/-- Source expression `close_prices[peaks][-3:] if len(peaks) >= 3 else
close_prices[peaks]`. -/
def resistanceLevels (close : List ℚ) : List ℚ :=
  let peaks := peaksOf close
  let prices := peaks.map (getQ close)
  if 3 ≤ peaks.length then prices.drop (prices.length - 3) else prices

/-- The last (at most) `n` elements of a list, in order: the specification's
"prices of the last n points in index order (or all points if fewer exist)". -/
def lastN (n : Nat) (l : List ℚ) : List ℚ := (l.reverse.take n).reverse

/-! ### Indicator pipeline (the `ta` backend branch of the source)

The source computes SMA by `rolling(window).mean()`, RSI through
`ta.momentum.RSIIndicator(close, window=14)`, and MACD through
`ta.trend.MACD(close, window_slow=26, window_fast=12, window_sign=9)`; those
library routines use the pandas exponentially weighted mean with
`adjust=False` (recursion `y ← (1-α)·y + α·x`, seeded with the first sample)
and a `min_periods` mask that leaves the first `window - 1` outputs
undefined. -/

/-- Pandas `ewm(..., adjust=False).mean()` recursion after the seed value. -/
def ewmRec (a : ℚ) : ℚ → List ℚ → List ℚ
  | _, [] => []
  | y, x :: xs =>
    let y2 := (1 - a) * y + a * x
    y2 :: ewmRec a y2 xs

/-- Pandas `ewm(..., adjust=False).mean()` over a full series: the first
output equals the first sample, the rest follow the smoothing recursion. -/
def ewmAdjFalse (a : ℚ) : List ℚ → List ℚ
  | [] => []
  | x :: xs => x :: ewmRec a x xs

/-- The `min_periods = w` mask of pandas: outputs at indices `0 .. w-2` are
undefined, later outputs carry the computed value. -/
def maskWarmup (w : Nat) (xs : List ℚ) : List (Option ℚ) :=
  xs.enum.map fun p => if p.1 + 1 < w then none else some p.2

/-- Rolling simple moving average over `n` bars (`rolling(n).mean()`):
undefined for the first `n - 1` bars. -/
def sma (n : Nat) (xs : List ℚ) : List (Option ℚ) :=
  (List.range xs.length).map fun i =>
    if i + 1 < n then none
    else some (((xs.take (i + 1)).drop (i + 1 - n)).sum / (n : ℚ))

/-- First differences `close.diff(1)` (without the leading NaN slot). -/
def diffs (closes : List ℚ) : List ℚ :=
  (closes.zip (closes.drop 1)).map fun p => p.2 - p.1

/-- Gain series of the RSI: `diff.where(diff > 0, 0.0)`; the leading NaN of
`diff(1)` is replaced by 0 by the `where`. -/
def gains (closes : List ℚ) : List ℚ :=
  0 :: (diffs closes).map fun d => if 0 < d then d else 0

/-- Loss series of the RSI: `-diff.where(diff < 0, 0.0)`. -/
def losses (closes : List ℚ) : List ℚ :=
  0 :: (diffs closes).map fun d => if d < 0 then -d else 0

/-- Wilder-smoothed average gain: `ewm(alpha=1/14, adjust=False)`. -/
def avgGain (closes : List ℚ) : List ℚ := ewmAdjFalse (1 / 14) (gains closes)

/-- Wilder-smoothed average loss: `ewm(alpha=1/14, adjust=False)`. -/
def avgLoss (closes : List ℚ) : List ℚ := ewmAdjFalse (1 / 14) (losses closes)

/-- RSI-14 series: `100 - 100 / (1 + avg gain / avg loss)`, masked for the
first 13 bars by `min_periods=14`.  A zero average loss makes the float
quotient inf (positive gain, RSI exactly 100) or NaN (zero gain, RSI
undefined); both cases are spelled out over `ℚ`. -/
def rsiSeries (closes : List ℚ) : List (Option ℚ) :=
  ((avgGain closes).zip (avgLoss closes)).enum.map fun p =>
    if p.1 + 1 < 14 then none
    else if p.2.2 = 0 then (if p.2.1 = 0 then none else some 100)
    else some (100 - 100 / (1 + p.2.1 / p.2.2))

/-- Raw MACD line values `EMA-12 - EMA-26` of close, before the warm-up
mask. -/
def macdRaw (closes : List ℚ) : List ℚ :=
  ((ewmAdjFalse (2 / 13) closes).zip (ewmAdjFalse (2 / 27) closes)).map
    fun p => p.1 - p.2

/-- MACD line as the backend exposes it: undefined for the first 25 bars
(`min_periods = 26` of the slow EMA). -/
def macdLine (closes : List ℚ) : List (Option ℚ) := maskWarmup 26 (macdRaw closes)

/-- MACD signal line: EMA-9 (span 9, so `α = 1/5`) of the MACD line; the
recursion starts at the first defined MACD value (index 25) and the
`min_periods = 9` mask leaves the signal undefined before index 33. -/
def macdSignal (closes : List ℚ) : List (Option ℚ) :=
  List.replicate 25 (none : Option ℚ) ++
    maskWarmup 9 (ewmAdjFalse (1 / 5) ((macdRaw closes).drop 25))

/-- NaN-propagating subtraction of two indicator values. -/
def optSub : Option ℚ → Option ℚ → Option ℚ
  | some a, some b => some (a - b)
  | _, _ => none

/-- MACD histogram: elementwise MACD line minus MACD signal (`macd_diff` of
the backend), undefined wherever either operand is. -/
def macdHist (closes : List ℚ) : List (Option ℚ) :=
  ((macdLine closes).zip (macdSignal closes)).map fun p => optSub p.1 p.2

/-! ### AnalysisReport assembly (source `_run`) -/

/-- One historical price bar (the fields of the fetched history that the
engine reads). -/
structure Bar where
  high : ℚ
  low : ℚ
  close : ℚ
deriving Repr, DecidableEq

/-- True range of a bar against the previous close. -/
def trueRangeAt (b : Bar) (prevClose : ℚ) : ℚ :=
  max (b.high - b.low) (max |b.high - prevClose| |b.low - prevClose|)

/-- True-range series; the first bar, which has no previous close, contributes
its own high-low range. -/
def trueRangeList (bars : List Bar) : List ℚ :=
  match bars with
  | [] => []
  | b :: rest => (b.high - b.low) :: ((rest.zip bars).map fun p => trueRangeAt p.1 p.2.close)

/-- ATR-14 series: Wilder-smoothed true range with a 14-bar warm-up mask. -/
def atrSeries (bars : List Bar) : List (Option ℚ) :=
  maskWarmup 14 (ewmAdjFalse (1 / 14) (trueRangeList bars))

/-- Latest value of an indicator column as the source reads it:
`col.iloc[-1] if not col.isnull().all() else None`. -/
def lastIndicator (xs : List (Option ℚ)) : Option ℚ :=
  if xs.all fun o => o.isNone then none else xs.getLastD none

/-- The full analysis report dictionary assembled by `_run` on success. -/
structure AnalysisReport where
  ticker : String
  current_price : ℚ
  sma_50 : Option ℚ
  sma_200 : Option ℚ
  rsi : Option ℚ
  macd : Option ℚ
  atr : Option ℚ
  support_levels : List ℚ
  resistance_levels : List ℚ
  identified_patterns : List String
deriving Repr, DecidableEq

/-- Result of a tool invocation: either a full report dictionary or an error
dictionary carrying a message, never a mixture. -/
inductive RunResult where
  | report : AnalysisReport → RunResult
  | error : String → RunResult
deriving Repr, DecidableEq

/-- The error message of the data-sufficiency precondition. -/
def INSUFFICIENT_MSG : String :=
  "Insufficient data for technical analysis. At least 50 data points are required."

/-- Source `_run` over an already-fetched history (the yfinance download is
the external collaborator): validate the bar count, compute the indicator
series, read off their latest values, derive levels and patterns, and
assemble the report. -/
def run (ticker : String) (bars : List Bar) : RunResult :=
  if bars.length < 50 then .error INSUFFICIENT_MSG
  else
    let closes := bars.map Bar.close
    .report
      { ticker := ticker
        current_price := closes.getLastD 0
        sma_50 := lastIndicator (sma 50 closes)
        sma_200 := lastIndicator (sma 200 closes)
        rsi := lastIndicator (rsiSeries closes)
        macd := lastIndicator (macdLine closes)
        atr := lastIndicator (atrSeries bars)
        support_levels := supportLevels closes
        resistance_levels := resistanceLevels closes
        identified_patterns := identify_chart_patterns closes }

/-! ### Concrete fixtures -/

/-- Synthetic 52-bar close series with strict local maxima at indices 10, 30,
50 of prices 100, 120, 100 and local minima at indices 20 and 40. -/
def closes52 : List ℚ :=
  [90, 91, 92, 93, 94, 95, 96, 97, 98, 99, 100,
   98, 96, 94, 92, 90, 88, 86, 84, 82, 80,
   84, 88, 92, 96, 100, 104, 108, 112, 116, 120,
   117, 114, 111, 108, 105, 102, 99, 96, 93, 90,
   91, 92, 93, 94, 95, 96, 97, 98, 99, 100,
   95]

/-- Synthetic 32-bar close series with peaks at indices 10 and 30 of prices
100 and 102 (2% apart). -/
def closesDT : List ℚ :=
  [90, 91, 92, 93, 94, 95, 96, 97, 98, 99, 100,
   98, 96, 94, 92, 90, 88, 86, 84, 82, 80,
   82, 84, 86, 88, 90, 92, 94, 96, 98, 102,
   95]

/-- Synthetic 32-bar close series with peaks at indices 10 and 30 of prices
100 and 110 (10% apart). -/
def closesDT2 : List ℚ :=
  [90, 91, 92, 93, 94, 95, 96, 97, 98, 99, 100,
   98, 96, 94, 92, 90, 88, 86, 84, 82, 80,
   83, 86, 89, 92, 95, 98, 101, 104, 107, 110,
   95]

/-- Strictly ascending 52-bar close series: it has no troughs at all. -/
def closesAsc : List ℚ := (List.range 52).map fun i => (i : ℚ)

/-- A 15-bar close series rising by 1 each bar: every loss is zero, so RSI-14
is 100 at its first defined index. -/
def closesUp : List ℚ := [1, 2, 3, 4, 5, 6, 7, 8, 9, 10, 11, 12, 13, 14, 15]

/-- Invariant of the distance-filter loop: every already-visited position
(`P` collects them) that is still kept has discarded every other candidate
whose peak index lies within `d` bars of its own. -/
def DistInv (peaks : List Nat) (d : Nat) (P : Nat → Prop) (keep : List Bool) : Prop :=
  ∀ j, P j → keep.getD j false = true → ∀ k, k < peaks.length → k ≠ j →
    ((peaks.getD k 0 : Int) - (peaks.getD j 0 : Int)).natAbs < d →
      keep.getD k false = false

/-! ## Pattern-classifier characterisations -/

/-- The Head and Shoulders label appears in the pattern list exactly when its
rule fires; the two other rules contribute distinct labels. -/
theorem mem_patterns_hs (close : List ℚ) :
    "Head and Shoulders" ∈ identify_chart_patterns close ↔
      is_head_and_shoulders close = true := by
  unfold identify_chart_patterns
  cases h1 : is_head_and_shoulders close <;> cases h2 : is_double_top close <;>
    cases h3 : is_double_bottom close <;> simp

/-- The Double Top label appears in the pattern list exactly when its rule
fires. -/
theorem mem_patterns_dt (close : List ℚ) :
    "Double Top" ∈ identify_chart_patterns close ↔ is_double_top close = true := by
  unfold identify_chart_patterns
  cases h1 : is_head_and_shoulders close <;> cases h2 : is_double_top close <;>
    cases h3 : is_double_bottom close <;> simp

/-- The Double Bottom label appears in the pattern list exactly when its rule
fires. -/
theorem mem_patterns_db (close : List ℚ) :
    "Double Bottom" ∈ identify_chart_patterns close ↔ is_double_bottom close = true := by
  unfold identify_chart_patterns
  cases h1 : is_head_and_shoulders close <;> cases h2 : is_double_top close <;>
    cases h3 : is_double_bottom close <;> simp

/-- Unfolded form of the Head and Shoulders rule: at least three peaks, and
the head (second-to-last peak) strictly above both shoulders. -/
theorem hs_char (close : List ℚ) :
    is_head_and_shoulders close = true ↔
      3 ≤ (peaksOf close).length ∧
        getQ close ((peaksOf close).getD ((peaksOf close).length - 3) 0) <
          getQ close ((peaksOf close).getD ((peaksOf close).length - 2) 0) ∧
        getQ close ((peaksOf close).getD ((peaksOf close).length - 1) 0) <
          getQ close ((peaksOf close).getD ((peaksOf close).length - 2) 0) := by
  unfold is_head_and_shoulders
  by_cases h : 3 ≤ (peaksOf close).length <;> simp [h]

/-- Unfolded form of the Double Top rule: at least two peaks, a nonzero
earlier-peak price (the float quotient against zero never compares below the
threshold), and relative difference below 3%. -/
theorem dt_char (close : List ℚ) :
    is_double_top close = true ↔
      2 ≤ (peaksOf close).length ∧
        getQ close ((peaksOf close).getD ((peaksOf close).length - 2) 0) ≠ 0 ∧
        |getQ close ((peaksOf close).getD ((peaksOf close).length - 1) 0) -
            getQ close ((peaksOf close).getD ((peaksOf close).length - 2) 0)| /
          getQ close ((peaksOf close).getD ((peaksOf close).length - 2) 0) < 3 / 100 := by
  unfold is_double_top
  by_cases h : 2 ≤ (peaksOf close).length <;> simp [h]

/-- Unfolded form of the Double Bottom rule: the Double Top rule transported
to the last two troughs. -/
theorem db_char (close : List ℚ) :
    is_double_bottom close = true ↔
      2 ≤ (troughsOf close).length ∧
        getQ close ((troughsOf close).getD ((troughsOf close).length - 2) 0) ≠ 0 ∧
        |getQ close ((troughsOf close).getD ((troughsOf close).length - 1) 0) -
            getQ close ((troughsOf close).getD ((troughsOf close).length - 2) 0)| /
          getQ close ((troughsOf close).getD ((troughsOf close).length - 2) 0) < 3 / 100 := by
  unfold is_double_bottom
  by_cases h : 2 ≤ (troughsOf close).length <;> simp [h]

/-- The last-`n` suffix of a list is a drop. -/
theorem lastN_eq_drop (n : Nat) (l : List ℚ) : lastN n l = l.drop (l.length - n) := by
  unfold lastN
  rw [List.take_reverse, List.reverse_reverse]

/-! ## Claim theorems (first group) -/

/-- C1: for every ticker and fetched history, the tool invocation produces a
structured value: either a complete report or an error carrying a message —
the two constructors of `RunResult` — and never a mixture of the two; the
embedding of `_run` is a total function, so no exception escapes it. -/
theorem c1_run_total (ticker : String) (bars : List Bar) :
    (∃ r, run ticker bars = RunResult.report r) ∨
      (∃ m, run ticker bars = RunResult.error m) := by
  rcases h : run ticker bars with r | m
  · exact Or.inl ⟨r, rfl⟩
  · exact Or.inr ⟨m, rfl⟩

/-- C2: the analysis returns the insufficient-data error exactly when the
fetched history holds fewer than 50 bars; with 50 or more bars (in
particular exactly 50) that error is never returned. -/
theorem c2_insufficient_iff (ticker : String) (bars : List Bar) :
    run ticker bars = RunResult.error INSUFFICIENT_MSG ↔ bars.length < 50 := by
  unfold run
  by_cases h : bars.length < 50 <;> simp [h]

/-- C3: the Head and Shoulders label is reported iff the extrema detection
with minimum distance 20 yields at least 3 peaks whose last three, read as
(left shoulder, head, right shoulder), have the head price strictly above
both shoulder prices; the synthetic series `closes52` with peaks at indices
10, 30, 50 of prices 100, 120, 100 classifies as Head and Shoulders. -/
theorem c3_head_and_shoulders :
    (∀ close : List ℚ,
        "Head and Shoulders" ∈ identify_chart_patterns close ↔
          3 ≤ (peaksOf close).length ∧
            getQ close ((peaksOf close).getD ((peaksOf close).length - 3) 0) <
              getQ close ((peaksOf close).getD ((peaksOf close).length - 2) 0) ∧
            getQ close ((peaksOf close).getD ((peaksOf close).length - 1) 0) <
              getQ close ((peaksOf close).getD ((peaksOf close).length - 2) 0)) ∧
      peaksOf closes52 = [10, 30, 50] ∧
      getQ closes52 10 = 100 ∧ getQ closes52 30 = 120 ∧ getQ closes52 50 = 100 ∧
      "Head and Shoulders" ∈ identify_chart_patterns closes52 := by
  refine ⟨fun close => (mem_patterns_hs close).trans (hs_char close),
    by decide, by decide, by decide, by decide, ?_⟩
  rw [mem_patterns_hs]
  decide

/-- C4: the Double Top label is reported iff there are at least 2 detected
peaks whose last two prices differ relatively by strictly less than 3% of the
earlier price (the quotient being against a nonzero price); Double Bottom is
the symmetric rule on the last two troughs; last peaks of prices 100 and 102
match Double Top, prices 100 and 110 do not. -/
theorem c4_double_top_bottom :
    (∀ close : List ℚ,
        "Double Top" ∈ identify_chart_patterns close ↔
          2 ≤ (peaksOf close).length ∧
            getQ close ((peaksOf close).getD ((peaksOf close).length - 2) 0) ≠ 0 ∧
            |getQ close ((peaksOf close).getD ((peaksOf close).length - 1) 0) -
                getQ close ((peaksOf close).getD ((peaksOf close).length - 2) 0)| /
              getQ close ((peaksOf close).getD ((peaksOf close).length - 2) 0) < 3 / 100) ∧
      (∀ close : List ℚ,
        "Double Bottom" ∈ identify_chart_patterns close ↔
          2 ≤ (troughsOf close).length ∧
            getQ close ((troughsOf close).getD ((troughsOf close).length - 2) 0) ≠ 0 ∧
            |getQ close ((troughsOf close).getD ((troughsOf close).length - 1) 0) -
                getQ close ((troughsOf close).getD ((troughsOf close).length - 2) 0)| /
              getQ close ((troughsOf close).getD ((troughsOf close).length - 2) 0) < 3 / 100) ∧
      peaksOf closesDT = [10, 30] ∧ getQ closesDT 10 = 100 ∧ getQ closesDT 30 = 102 ∧
      "Double Top" ∈ identify_chart_patterns closesDT ∧
      peaksOf closesDT2 = [10, 30] ∧ getQ closesDT2 10 = 100 ∧ getQ closesDT2 30 = 110 ∧
      "Double Top" ∉ identify_chart_patterns closesDT2 := by
  have hp : peaksOf closesDT = [10, 30] := by decide
  have hp2 : peaksOf closesDT2 = [10, 30] := by decide
  have e1 : getQ closesDT (([10, 30] : List Nat).getD (([10, 30] : List Nat).length - 1) 0)
      = 102 := by decide
  have e2 : getQ closesDT (([10, 30] : List Nat).getD (([10, 30] : List Nat).length - 2) 0)
      = 100 := by decide
  have e3 : getQ closesDT2 (([10, 30] : List Nat).getD (([10, 30] : List Nat).length - 1) 0)
      = 110 := by decide
  have e4 : getQ closesDT2 (([10, 30] : List Nat).getD (([10, 30] : List Nat).length - 2) 0)
      = 100 := by decide
  refine ⟨fun close => (mem_patterns_dt close).trans (dt_char close),
    fun close => (mem_patterns_db close).trans (db_char close),
    hp, by decide, by decide, ?_, hp2, by decide, by decide, ?_⟩
  · rw [mem_patterns_dt, dt_char, hp, e1, e2]
    norm_num
  · intro hmem
    rw [mem_patterns_dt, dt_char, hp2, e3, e4] at hmem
    have := hmem.2.2
    norm_num at this

/-- C5: the support levels are the prices of the last (at most) 3 troughs in
index order — all troughs if fewer than 3 exist — and the resistance levels
are the analogous list over peaks; each list has at most 3 elements, and an
extrema-free series yields an empty list rather than an error. -/
theorem c5_levels (close : List ℚ) :
    supportLevels close = lastN 3 ((troughsOf close).map (getQ close)) ∧
    resistanceLevels close = lastN 3 ((peaksOf close).map (getQ close)) ∧
    (supportLevels close).length ≤ 3 ∧
    (resistanceLevels close).length ≤ 3 ∧
    (troughsOf close = [] → supportLevels close = []) ∧
    (peaksOf close = [] → resistanceLevels close = []) := by
  have hsupp : supportLevels close = lastN 3 ((troughsOf close).map (getQ close)) := by
    unfold supportLevels
    rw [lastN_eq_drop]
    by_cases h : 3 ≤ (troughsOf close).length
    · simp [h]
    · have hlen : (troughsOf close).length - 3 = 0 := by omega
      simp [h, List.length_map, hlen]
  have hres : resistanceLevels close = lastN 3 ((peaksOf close).map (getQ close)) := by
    unfold resistanceLevels
    rw [lastN_eq_drop]
    by_cases h : 3 ≤ (peaksOf close).length
    · simp [h]
    · have hlen : (peaksOf close).length - 3 = 0 := by omega
      simp [h, List.length_map, hlen]
  refine ⟨hsupp, hres, ?_, ?_, ?_, ?_⟩
  · rw [hsupp]; unfold lastN
    simp only [List.length_reverse, List.length_take]
    omega
  · rw [hres]; unfold lastN
    simp only [List.length_reverse, List.length_take]
    omega
  · intro h; rw [hsupp, h]; rfl
  · intro h; rw [hres, h]; rfl

/-- Witness for C5 at a concrete trough-free series. -/
theorem c5_levels_witness : supportLevels closesAsc = [] :=
  (c5_levels closesAsc).2.2.2.2.1 (by decide)

/-- C9: the engine is deterministic and side-effect-free — it is a pure
function of the fetched series, so two invocations on the same series yield
identical reports (indicators, levels and pattern sets included). -/
theorem c9_deterministic (ticker : String) (bars bars2 : List Bar) (h : bars = bars2) :
    run ticker bars = run ticker bars2 := by rw [h]

/-- Witness for C9 at a concrete input. -/
theorem c9_deterministic_witness : run "AAPL" ([] : List Bar) = run "AAPL" ([] : List Bar) :=
  c9_deterministic "AAPL" [] [] rfl

/-- C10: the identified-pattern list is always a subsequence of the fixed
sequence Head and Shoulders, Double Top, Double Bottom — so it has no
duplicates and a fixed order — and each label is present exactly when its
rule matches. -/
theorem c10_pattern_list_shape (close : List ℚ) :
    (identify_chart_patterns close).Sublist
        ["Head and Shoulders", "Double Top", "Double Bottom"] ∧
    (identify_chart_patterns close).Nodup ∧
    ("Head and Shoulders" ∈ identify_chart_patterns close ↔
      is_head_and_shoulders close = true) ∧
    ("Double Top" ∈ identify_chart_patterns close ↔ is_double_top close = true) ∧
    ("Double Bottom" ∈ identify_chart_patterns close ↔ is_double_bottom close = true) := by
  refine ⟨?_, ?_, mem_patterns_hs close, mem_patterns_dt close, mem_patterns_db close⟩ <;>
  · unfold identify_chart_patterns
    cases h1 : is_head_and_shoulders close <;> cases h2 : is_double_top close <;>
      cases h3 : is_double_bottom close <;> simp

/-! ## MACD histogram (C7) -/

/-- A defined `getD` read witnesses an in-range index. -/
theorem getD_some_lt {xs : List (Option ℚ)} {i : Nat} {a : ℚ}
    (h : xs.getD i none = some a) : i < xs.length := by
  by_contra hi
  rw [List.getD_eq_default _ _ (Nat.le_of_not_lt hi)] at h
  exact Option.noConfusion h

/-- C7: wherever both the MACD line and the MACD signal are defined, the MACD
histogram equals line minus signal (exactly, over `ℚ`). -/
theorem c7_macd_hist (closes : List ℚ) (i : Nat) (a b : ℚ)
    (hl : (macdLine closes).getD i none = some a)
    (hsg : (macdSignal closes).getD i none = some b) :
    (macdHist closes).getD i none = some (a - b) := by
  have hil : i < (macdLine closes).length := getD_some_lt hl
  have his : i < (macdSignal closes).length := getD_some_lt hsg
  have hiz : i < ((macdLine closes).zip (macdSignal closes)).length := by
    rw [List.length_zip]
    exact lt_min hil his
  have hih : i < (macdHist closes).length := by
    unfold macdHist
    rw [List.length_map]
    exact hiz
  rw [List.getD_eq_getElem _ _ hih]
  rw [List.getD_eq_getElem _ _ hil] at hl
  rw [List.getD_eq_getElem _ _ his] at hsg
  unfold macdHist
  simp only [List.getElem_map, List.getElem_zip]
  rw [hl, hsg]
  rfl

/-- The ewm recursion is constant on a constant series. -/
theorem ewmRec_replicate (q c : ℚ) : ∀ n, ewmRec q c (List.replicate n c) = List.replicate n c := by
  intro n
  induction n with
  | zero => rfl
  | succ n ih =>
    rw [List.replicate_succ]
    simp only [ewmRec]
    rw [show (1 - q) * c + q * c = c by ring, ih]

/-- `ewmAdjFalse` is the identity on a constant series. -/
theorem ewmAdjFalse_replicate (q c : ℚ) (n : Nat) :
    ewmAdjFalse q (List.replicate n c) = List.replicate n c := by
  cases n with
  | zero => rfl
  | succ n =>
    rw [List.replicate_succ]
    simp only [ewmAdjFalse]
    rw [ewmRec_replicate]

/-- The raw MACD line of a constant series is identically zero. -/
theorem macdRaw_replicate (n : Nat) (c : ℚ) :
    macdRaw (List.replicate n c) = List.replicate n 0 := by
  unfold macdRaw
  rw [ewmAdjFalse_replicate, ewmAdjFalse_replicate, List.zip_replicate, List.map_replicate]
  simp

/-- The MACD line of a constant 34-bar series is defined and zero at the last
bar. -/
theorem c7_line_fact : (macdLine (List.replicate 34 (1 : ℚ))).getD 33 none = some 0 := by
  unfold macdLine
  rw [macdRaw_replicate]
  decide

/-- The MACD signal of a constant 34-bar series is defined and zero at the
last bar. -/
theorem c7_signal_fact : (macdSignal (List.replicate 34 (1 : ℚ))).getD 33 none = some 0 := by
  unfold macdSignal
  rw [macdRaw_replicate, List.drop_replicate, ewmAdjFalse_replicate]
  decide

/-- Witness for C7 at a constant 34-bar series. -/
theorem c7_macd_hist_witness :
    (macdHist (List.replicate 34 (1 : ℚ))).getD 33 none = some (0 - 0) :=
  c7_macd_hist (List.replicate 34 (1 : ℚ)) 33 0 0 c7_line_fact c7_signal_fact

/-! ## RSI bounds (C8) -/

/-- Every value produced by the ewm recursion from nonnegative inputs is
nonnegative (smoothing factor in `[0, 1]`). -/
theorem ewmRec_nonneg {q : ℚ} (ha0 : 0 ≤ q) (ha1 : q ≤ 1) :
    ∀ (xs : List ℚ) (y : ℚ), 0 ≤ y → (∀ x ∈ xs, 0 ≤ x) →
      ∀ v ∈ ewmRec q y xs, 0 ≤ v := by
  intro xs
  induction xs with
  | nil => intro y _ _ v hv; simp [ewmRec] at hv
  | cons x xs ih =>
    intro y hy hxs v hv
    simp only [ewmRec, List.mem_cons] at hv
    have hx : 0 ≤ x := hxs x (by simp)
    have hy2 : 0 ≤ (1 - q) * y + q * x :=
      add_nonneg (mul_nonneg (by linarith) hy) (mul_nonneg ha0 hx)
    rcases hv with rfl | hv
    · exact hy2
    · exact ih _ hy2 (fun z hz => hxs z (by simp [hz])) v hv

/-- Every value of `ewmAdjFalse` over nonnegative inputs is nonnegative. -/
theorem ewmAdjFalse_nonneg {q : ℚ} (ha0 : 0 ≤ q) (ha1 : q ≤ 1)
    (xs : List ℚ) (hxs : ∀ x ∈ xs, 0 ≤ x) : ∀ v ∈ ewmAdjFalse q xs, 0 ≤ v := by
  cases xs with
  | nil => simp [ewmAdjFalse]
  | cons x xs =>
    intro v hv
    simp only [ewmAdjFalse, List.mem_cons] at hv
    have hx : 0 ≤ x := hxs x (by simp)
    rcases hv with rfl | hv
    · exact hx
    · exact ewmRec_nonneg ha0 ha1 xs x hx (fun z hz => hxs z (by simp [hz])) v hv

/-- Gains are nonnegative. -/
theorem gains_nonneg (closes : List ℚ) : ∀ v ∈ gains closes, 0 ≤ v := by
  intro v hv
  unfold gains at hv
  rcases List.mem_cons.mp hv with rfl | h
  · exact le_rfl
  · obtain ⟨d, _, hd⟩ := List.mem_map.mp h
    rw [← hd]
    split_ifs with h2
    · exact le_of_lt h2
    · exact le_rfl

/-- Losses are nonnegative. -/
theorem losses_nonneg (closes : List ℚ) : ∀ v ∈ losses closes, 0 ≤ v := by
  intro v hv
  unfold losses at hv
  rcases List.mem_cons.mp hv with rfl | h
  · exact le_rfl
  · obtain ⟨d, _, hd⟩ := List.mem_map.mp h
    rw [← hd]
    split_ifs with h2
    · linarith
    · exact le_rfl

/-- Wilder-smoothed average gains are nonnegative. -/
theorem avgGain_nonneg (closes : List ℚ) : ∀ v ∈ avgGain closes, 0 ≤ v :=
  ewmAdjFalse_nonneg (by norm_num) (by norm_num) _ (gains_nonneg closes)

/-- Wilder-smoothed average losses are nonnegative. -/
theorem avgLoss_nonneg (closes : List ℚ) : ∀ v ∈ avgLoss closes, 0 ≤ v :=
  ewmAdjFalse_nonneg (by norm_num) (by norm_num) _ (losses_nonneg closes)

/-- C8: every defined RSI-14 value lies in `[0, 100]`, and whenever the
average loss is zero at a defined index the RSI equals 100 — with no division
by zero anywhere (the embedding is total). -/
theorem c8_rsi_bounds (closes : List ℚ) (i : Nat) (v : ℚ)
    (h : (rsiSeries closes).getD i none = some v) :
    ((0 : ℚ) ≤ v ∧ v ≤ 100) ∧ ((avgLoss closes).getD i 0 = 0 → v = 100) := by
  have hi : i < (rsiSeries closes).length := getD_some_lt h
  have hiz : i < ((avgGain closes).zip (avgLoss closes)).length := by
    have h2 := hi
    unfold rsiSeries at h2
    rwa [List.length_map, List.enum_length] at h2
  have hig : i < (avgGain closes).length := by
    rw [List.length_zip] at hiz
    exact lt_of_lt_of_le hiz (min_le_left _ _)
  have hil : i < (avgLoss closes).length := by
    rw [List.length_zip] at hiz
    exact lt_of_lt_of_le hiz (min_le_right _ _)
  have hg0 : 0 ≤ (avgGain closes)[i] := avgGain_nonneg closes _ (List.getElem_mem hig)
  have hl0 : 0 ≤ (avgLoss closes)[i] := avgLoss_nonneg closes _ (List.getElem_mem hil)
  rw [List.getD_eq_getElem _ _ hi] at h
  unfold rsiSeries at h
  simp only [List.getElem_map, List.getElem_enum, List.getElem_zip] at h
  split_ifs at h with h14 hLzero hGzero
  · have hv : v = 100 := (Option.some.inj h).symm
    subst hv
    exact ⟨⟨by norm_num, le_rfl⟩, fun _ => rfl⟩
  · have hv : v = 100 - 100 / (1 + (avgGain closes)[i] / (avgLoss closes)[i]) :=
      (Option.some.inj h).symm
    have hlpos : 0 < (avgLoss closes)[i] := lt_of_le_of_ne hl0 (Ne.symm hLzero)
    have ht : 0 ≤ (avgGain closes)[i] / (avgLoss closes)[i] := div_nonneg hg0 hl0
    have h1 : 0 < 100 / (1 + (avgGain closes)[i] / (avgLoss closes)[i]) := by positivity
    have h2 : 100 / (1 + (avgGain closes)[i] / (avgLoss closes)[i]) ≤ 100 :=
      div_le_self (by norm_num) (by linarith)
    refine ⟨⟨by rw [hv]; linarith, by rw [hv]; linarith⟩, fun hc => ?_⟩
    rw [List.getD_eq_getElem _ _ hil] at hc
    exact absurd hc hLzero

/-- On the rising fixture the RSI-14 is defined at index 13 and equals 100
(all losses are zero, the smoothed gain is positive). -/
theorem c8_rsi_fact : (rsiSeries closesUp).getD 13 none = some 100 := by
  norm_num [rsiSeries, avgGain, avgLoss, gains, losses, diffs, closesUp,
    ewmAdjFalse, ewmRec, List.enum, List.enumFrom]

/-- Witness for C8 at the rising fixture, where RSI-14 is defined (index 13)
and equal to 100. -/
theorem c8_rsi_bounds_witness :
    ((0 : ℚ) ≤ 100 ∧ (100 : ℚ) ≤ 100) ∧
      ((avgLoss closesUp).getD 13 0 = 0 → (100 : ℚ) = 100) :=
  c8_rsi_bounds closesUp 13 100 c8_rsi_fact

/-! ## Minimum-distance invariant of the extrema detector (C6)

The plan: the distance filter visits candidates from highest priority to
lowest, and a kept candidate discards every other candidate within `d` bars
(`killLeft`/`killRight`, whose early exit is justified by the sortedness of
the candidate list).  `DistInv` states that visited-and-kept candidates have
no close neighbour left; it is preserved by every step, kills are permanent,
and at the end every position has been visited, so two distinct survivors are
at least `d` bars apart. -/

/-- Setting an entry to `false` makes that read `false`. -/
theorem setFalse_getD_self (l : List Bool) (k : Nat) :
    (l.set k false).getD k false = false := by
  by_cases h : k < l.length
  · rw [List.getD_eq_getElem _ _ (by simpa using h), List.getElem_set]
    simp
  · rw [List.getD_eq_default _ _ (by simp; omega)]

/-- Setting an entry to `false` leaves other reads unchanged. -/
theorem setFalse_getD_ne (l : List Bool) {i k : Nat} (h : i ≠ k) :
    (l.set k false).getD i false = l.getD i false := by
  by_cases hi : i < l.length
  · rw [List.getD_eq_getElem _ _ (by simpa using hi), List.getD_eq_getElem _ _ hi,
      List.getElem_set, if_neg (Ne.symm h)]
  · rw [List.getD_eq_default _ _ (by simp; omega),
      List.getD_eq_default _ _ (Nat.le_of_not_lt hi)]

/-- The left kill loop never revives a candidate. -/
theorem killLeft_mono (peaks : List Nat) (d : Nat) (pj : Int) :
    ∀ (k : Nat) (keep : List Bool) (i : Nat),
      (killLeft peaks d pj k keep).getD i false = true → keep.getD i false = true := by
  intro k
  induction k with
  | zero => intro keep i h; exact h
  | succ k ih =>
    intro keep i h
    simp only [killLeft] at h
    split at h
    · have h2 := ih _ _ h
      by_cases hik : i = k
      · subst hik; rw [setFalse_getD_self] at h2; exact absurd h2 (by simp)
      · rwa [setFalse_getD_ne _ hik] at h2
    · exact h

/-- A candidate already discarded stays discarded through the left kill
loop. -/
theorem killLeft_preserve_false (peaks : List Nat) (d : Nat) (pj : Int)
    (k : Nat) (keep : List Bool) (i : Nat) (h : keep.getD i false = false) :
    (killLeft peaks d pj k keep).getD i false = false := by
  cases hres : (killLeft peaks d pj k keep).getD i false
  · rfl
  · have h2 := killLeft_mono peaks d pj k keep i hres
    rw [h] at h2
    exact Bool.noConfusion h2

/-- The left kill loop does not touch positions at or above its start. -/
theorem killLeft_getD_ge (peaks : List Nat) (d : Nat) (pj : Int) :
    ∀ (k : Nat) (keep : List Bool) (i : Nat), k ≤ i →
      (killLeft peaks d pj k keep).getD i false = keep.getD i false := by
  intro k
  induction k with
  | zero => intro keep i _; rfl
  | succ k ih =>
    intro keep i hki
    simp only [killLeft]
    split
    · rw [ih _ _ (by omega), setFalse_getD_ne _ (by omega : i ≠ k)]
    · rfl

/-- On a sorted candidate list the left kill loop discards every candidate
below its start that lies within `d` bars of the visited peak: the early exit
is sound because earlier candidates are still farther away. -/
theorem killLeft_kills (peaks : List Nat) (d : Nat) (pj : Int)
    (hmono : ∀ a b : Nat, a ≤ b → b < peaks.length → peaks.getD a 0 ≤ peaks.getD b 0) :
    ∀ (k : Nat) (keep : List Bool), k ≤ peaks.length → ∀ i, i < k →
      pj - (peaks.getD i 0 : Int) < (d : Int) →
      (killLeft peaks d pj k keep).getD i false = false := by
  intro k
  induction k with
  | zero => intro keep _ i hi _; omega
  | succ k ih =>
    intro keep hk i hi hclose
    simp only [killLeft]
    split
    · by_cases hik : i = k
      · subst hik
        exact killLeft_preserve_false _ _ _ _ _ _ (setFalse_getD_self keep i)
      · exact ih _ (by omega) i (by omega) hclose
    · rename_i hcond
      exfalso
      have hklen : k < peaks.length := by omega
      have hle : peaks.getD i 0 ≤ peaks.getD k 0 := hmono i k (by omega) hklen
      have hle2 : (peaks.getD i 0 : Int) ≤ (peaks.getD k 0 : Int) := by exact_mod_cast hle
      omega

/-- The right kill loop never revives a candidate. -/
theorem killRight_mono (peaks : List Nat) (d : Nat) (pj : Int) :
    ∀ (c k : Nat) (keep : List Bool) (i : Nat),
      (killRight peaks d pj c k keep).getD i false = true → keep.getD i false = true := by
  intro c
  induction c with
  | zero => intro k keep i h; exact h
  | succ c ih =>
    intro k keep i h
    simp only [killRight] at h
    split at h
    · have h2 := ih _ _ _ h
      by_cases hik : i = k
      · subst hik; rw [setFalse_getD_self] at h2; exact absurd h2 (by simp)
      · rwa [setFalse_getD_ne _ hik] at h2
    · exact h

/-- A candidate already discarded stays discarded through the right kill
loop. -/
theorem killRight_preserve_false (peaks : List Nat) (d : Nat) (pj : Int)
    (c k : Nat) (keep : List Bool) (i : Nat) (h : keep.getD i false = false) :
    (killRight peaks d pj c k keep).getD i false = false := by
  cases hres : (killRight peaks d pj c k keep).getD i false
  · rfl
  · have h2 := killRight_mono peaks d pj c k keep i hres
    rw [h] at h2
    exact Bool.noConfusion h2

/-- The right kill loop does not touch positions below its start. -/
theorem killRight_getD_lt (peaks : List Nat) (d : Nat) (pj : Int) :
    ∀ (c k : Nat) (keep : List Bool) (i : Nat), i < k →
      (killRight peaks d pj c k keep).getD i false = keep.getD i false := by
  intro c
  induction c with
  | zero => intro k keep i _; rfl
  | succ c ih =>
    intro k keep i hik
    simp only [killRight]
    split
    · rw [ih _ _ _ (by omega), setFalse_getD_ne _ (by omega : i ≠ k)]
    · rfl

/-- On a sorted candidate list the right kill loop, run to the end of the
list, discards every candidate from its start onwards that lies within `d`
bars of the visited peak. -/
theorem killRight_kills (peaks : List Nat) (d : Nat) (pj : Int)
    (hmono : ∀ a b : Nat, a ≤ b → b < peaks.length → peaks.getD a 0 ≤ peaks.getD b 0) :
    ∀ (c k : Nat) (keep : List Bool), k + c = peaks.length → ∀ i, k ≤ i →
      i < peaks.length → (peaks.getD i 0 : Int) - pj < (d : Int) →
      (killRight peaks d pj c k keep).getD i false = false := by
  intro c
  induction c with
  | zero => intro k keep hkc i hki hi _; omega
  | succ c ih =>
    intro k keep hkc i hki hi hclose
    simp only [killRight]
    split
    · by_cases hik : i = k
      · subst hik
        exact killRight_preserve_false _ _ _ _ _ _ _ (setFalse_getD_self keep i)
      · exact ih (k + 1) _ (by omega) i (by omega) hi hclose
    · rename_i hcond
      exfalso
      have hklen : k < peaks.length := by omega
      have hle : peaks.getD k 0 ≤ peaks.getD i 0 := hmono k i hki hi
      have hle2 : (peaks.getD k 0 : Int) ≤ (peaks.getD i 0 : Int) := by exact_mod_cast hle
      omega

/-- One filter step never revives a candidate. -/
theorem distStep_mono (peaks : List Nat) (d : Nat) (keep : List Bool) (j i : Nat)
    (h : (distStep peaks d keep j).getD i false = true) : keep.getD i false = true := by
  unfold distStep at h
  split at h
  · exact killLeft_mono _ _ _ _ _ _ (killRight_mono _ _ _ _ _ _ _ h)
  · exact h

/-- A discarded candidate stays discarded through a filter step. -/
theorem distStep_preserve_false (peaks : List Nat) (d : Nat) (keep : List Bool)
    (j i : Nat) (h : keep.getD i false = false) :
    (distStep peaks d keep j).getD i false = false := by
  cases hres : (distStep peaks d keep j).getD i false
  · rfl
  · have h2 := distStep_mono peaks d keep j i hres
    rw [h] at h2
    exact Bool.noConfusion h2

/-- One filter step extends the invariant by the newly visited position. -/
theorem distStep_inv (peaks : List Nat) (d : Nat)
    (hmono : ∀ a b : Nat, a ≤ b → b < peaks.length → peaks.getD a 0 ≤ peaks.getD b 0)
    (P : Nat → Prop) (keep : List Bool) (j : Nat) (hj : j < peaks.length)
    (hInv : DistInv peaks d P keep) :
    DistInv peaks d (fun t => t = j ∨ P t) (distStep peaks d keep j) := by
  intro j2 hj2 hkept k hk hkj hclose
  rcases hj2 with rfl | hj2
  · unfold distStep at hkept ⊢
    cases hb : keep.getD j2 false with
    | false => simp only [hb, Bool.false_eq_true, if_false] at hkept
    | true =>
      simp only [hb, if_true] at hkept ⊢
      rcases Nat.lt_trichotomy k j2 with hlt | heq | hgt
      · have hle : peaks.getD k 0 ≤ peaks.getD j2 0 := hmono k j2 (by omega) hj
        have hle2 : (peaks.getD k 0 : Int) ≤ (peaks.getD j2 0 : Int) := by exact_mod_cast hle
        have hcl2 : (peaks.getD j2 0 : Int) - (peaks.getD k 0 : Int) < (d : Int) := by omega
        rw [killRight_getD_lt _ _ _ _ _ _ _ (by omega : k < j2 + 1)]
        exact killLeft_kills peaks d _ hmono j2 keep (le_of_lt hj) k hlt hcl2
      · exact absurd heq hkj
      · have hle : peaks.getD j2 0 ≤ peaks.getD k 0 := hmono j2 k (by omega) hk
        have hle2 : (peaks.getD j2 0 : Int) ≤ (peaks.getD k 0 : Int) := by exact_mod_cast hle
        have hcl2 : (peaks.getD k 0 : Int) - (peaks.getD j2 0 : Int) < (d : Int) := by omega
        exact killRight_kills peaks d _ hmono _ (j2 + 1) _ (by omega) k (by omega) hk hcl2
  · have hold : keep.getD j2 false = true := distStep_mono _ _ _ _ _ hkept
    have hfalse : keep.getD k false = false := hInv j2 hj2 hold k hk hkj hclose
    exact distStep_preserve_false _ _ _ _ _ hfalse

/-- The invariant is antitone in the visited-set predicate. -/
theorem distInv_mono_pred (peaks : List Nat) (d : Nat) (P Q : Nat → Prop)
    (keep : List Bool) (himp : ∀ t, Q t → P t) (h : DistInv peaks d P keep) :
    DistInv peaks d Q keep :=
  fun j hj => h j (himp j hj)

/-- Folding the filter step over a list of in-range positions extends the
invariant by all of them. -/
theorem foldl_distStep_inv (peaks : List Nat) (d : Nat)
    (hmono : ∀ a b : Nat, a ≤ b → b < peaks.length → peaks.getD a 0 ≤ peaks.getD b 0) :
    ∀ (L : List Nat) (P : Nat → Prop) (keep : List Bool),
      DistInv peaks d P keep → (∀ j ∈ L, j < peaks.length) →
      DistInv peaks d (fun t => t ∈ L ∨ P t) (L.foldl (distStep peaks d) keep) := by
  intro L
  induction L with
  | nil =>
    intro P keep hInv _
    refine distInv_mono_pred peaks d P _ _ (fun t ht => ?_) hInv
    rcases ht with ht | ht
    · exact absurd ht (List.not_mem_nil t)
    · exact ht
  | cons a L ih =>
    intro P keep hInv hL
    rw [List.foldl_cons]
    have h1 := distStep_inv peaks d hmono P keep a (hL a (by simp)) hInv
    have h2 := ih (fun t => t = a ∨ P t) _ h1 (fun j hj => hL j (by simp [hj]))
    refine distInv_mono_pred peaks d _ _ _ (fun t ht => ?_) h2
    rcases ht with ht | ht
    · rcases List.mem_cons.mp ht with h3 | h3
      · exact Or.inr (Or.inl h3)
      · exact Or.inl h3
    · exact Or.inr (Or.inr ht)

/-- Two distinct candidates both kept by the distance filter lie at least `d`
bars apart (for a sorted candidate list and a priority list of the same
length). -/
theorem selectByPeakDistance_spec (peaks : List Nat) (priority : List ℚ) (d : Nat)
    (hmono : ∀ a b : Nat, a ≤ b → b < peaks.length → peaks.getD a 0 ≤ peaks.getD b 0)
    (hplen : priority.length = peaks.length)
    (a b : Nat) (ha : a < peaks.length) (hb : b < peaks.length) (hab : a ≠ b)
    (hka : (selectByPeakDistance peaks priority d).getD a false = true)
    (hkb : (selectByPeakDistance peaks priority d).getD b false = true) :
    d ≤ ((peaks.getD b 0 : Int) - (peaks.getD a 0 : Int)).natAbs := by
  have hmem : ∀ j, j < peaks.length → j ∈ (argsortAsc priority).reverse := by
    intro j hj
    rw [List.mem_reverse]
    unfold argsortAsc
    rw [(List.perm_insertionSort _ _).mem_iff, List.mem_range, hplen]
    exact hj
  have hside : ∀ j ∈ (argsortAsc priority).reverse, j < peaks.length := by
    intro j hj
    rw [List.mem_reverse] at hj
    unfold argsortAsc at hj
    rw [(List.perm_insertionSort _ _).mem_iff, List.mem_range, hplen] at hj
    exact hj
  have hbase : DistInv peaks d (fun _ => False) (List.replicate peaks.length true) :=
    fun _ hj => hj.elim
  have hfin := foldl_distStep_inv peaks d hmono (argsortAsc priority).reverse
    (fun _ => False) (List.replicate peaks.length true) hbase hside
  unfold selectByPeakDistance at hka hkb
  by_contra hcon
  have hclose : ((peaks.getD b 0 : Int) - (peaks.getD a 0 : Int)).natAbs < d := by omega
  have hdead := hfin a (Or.inl (hmem a ha)) hka b hb (Ne.symm hab) hclose
  rw [hdead] at hkb
  exact Bool.noConfusion hkb

/-- The plateau scan never moves left. -/
theorem plateauEnd_ge (x : List ℚ) (iMax : Nat) (v : ℚ) (k : Nat) :
    k ≤ plateauEnd x iMax v k :=
  Nat.le_add_right k _

/-- Every local-maximum index produced from scan position `i` is at least
`i`. -/
theorem lmAux_lb (x : List ℚ) (iMax : Nat) :
    ∀ (fuel i : Nat), ∀ j ∈ lmAux x iMax fuel i, i ≤ j := by
  intro fuel
  induction fuel with
  | zero => intro i j hj; simp [lmAux] at hj
  | succ fuel ih =>
    intro i j hj
    simp only [lmAux] at hj
    by_cases h1 : i < iMax
    · rw [if_pos h1] at hj
      by_cases h2 : getQ x (i - 1) < getQ x i
      · rw [if_pos h2] at hj
        have hA1 : i + 1 ≤ plateauEnd x iMax (getQ x i) (i + 1) := plateauEnd_ge x iMax _ _
        by_cases h3 : getQ x (plateauEnd x iMax (getQ x i) (i + 1)) < getQ x i
        · rw [if_pos h3] at hj
          rcases List.mem_cons.mp hj with rfl | hj2
          · exact (Nat.le_div_iff_mul_le (by norm_num)).mpr (by omega)
          · have := ih _ j hj2
            omega
        · rw [if_neg h3] at hj
          have := ih (i + 1) j hj
          omega
      · rw [if_neg h2] at hj
        have := ih (i + 1) j hj
        omega
    · rw [if_neg h1] at hj
      simp at hj

/-- The local-maximum indices are produced in strictly increasing order. -/
theorem lmAux_sorted (x : List ℚ) (iMax : Nat) :
    ∀ (fuel i : Nat), List.Pairwise (· < ·) (lmAux x iMax fuel i) := by
  intro fuel
  induction fuel with
  | zero => intro i; simp [lmAux]
  | succ fuel ih =>
    intro i
    simp only [lmAux]
    by_cases h1 : i < iMax
    · rw [if_pos h1]
      by_cases h2 : getQ x (i - 1) < getQ x i
      · rw [if_pos h2]
        have hA1 : i + 1 ≤ plateauEnd x iMax (getQ x i) (i + 1) := plateauEnd_ge x iMax _ _
        by_cases h3 : getQ x (plateauEnd x iMax (getQ x i) (i + 1)) < getQ x i
        · rw [if_pos h3]
          refine List.Pairwise.cons ?_ (ih _)
          intro j hj
          have hjb := lmAux_lb x iMax fuel _ j hj
          have hmid : (i + (plateauEnd x iMax (getQ x i) (i + 1) - 1)) / 2 ≤
              plateauEnd x iMax (getQ x i) (i + 1) - 1 := by
            have h4 : i + (plateauEnd x iMax (getQ x i) (i + 1) - 1) ≤
                (plateauEnd x iMax (getQ x i) (i + 1) - 1) * 2 := by omega
            calc (i + (plateauEnd x iMax (getQ x i) (i + 1) - 1)) / 2
                ≤ (plateauEnd x iMax (getQ x i) (i + 1) - 1) * 2 / 2 :=
                  Nat.div_le_div_right h4
              _ = plateauEnd x iMax (getQ x i) (i + 1) - 1 :=
                  Nat.mul_div_cancel _ (by norm_num)
          omega
        · rw [if_neg h3]
          exact ih (i + 1)
      · rw [if_neg h2]
        exact ih (i + 1)
    · rw [if_neg h1]
      exact List.Pairwise.nil

/-- The detected local maxima of any series are strictly increasing. -/
theorem localMaxima_sorted (x : List ℚ) : List.Pairwise (· < ·) (localMaxima x) :=
  lmAux_sorted x (x.length - 1) x.length 1

/-- Positional reads of a strictly increasing list are monotone. -/
theorem sorted_getD_mono (l : List Nat) (hsort : List.Pairwise (· < ·) l) :
    ∀ a b : Nat, a ≤ b → b < l.length → l.getD a 0 ≤ l.getD b 0 := by
  intro a b hab hb
  rcases Nat.eq_or_lt_of_le hab with rfl | hlt
  · exact le_rfl
  · have ha : a < l.length := lt_trans hlt hb
    rw [List.getD_eq_getElem _ _ ha, List.getD_eq_getElem _ _ hb]
    exact le_of_lt (List.pairwise_iff_getElem.mp hsort a b ha hb hlt)

/-- Every member of `find_peaks` is a kept candidate at some position. -/
theorem mem_find_peaks_exists (x : List ℚ) (dst : Nat) (p : Nat)
    (hp : p ∈ find_peaks x dst) :
    ∃ i, i < (localMaxima x).length ∧ (localMaxima x).getD i 0 = p ∧
      (selectByPeakDistance (localMaxima x) ((localMaxima x).map (getQ x)) dst).getD
        i false = true := by
  simp only [find_peaks] at hp
  obtain ⟨pr, hpr, hsnd⟩ := List.mem_map.mp hp
  obtain ⟨hmem, hkeep⟩ := List.mem_filter.mp hpr
  obtain ⟨hi, hval⟩ := List.getElem?_eq_some.mp (List.mem_enum_iff_getElem?.mp hmem)
  refine ⟨pr.1, hi, ?_, ?_⟩
  · rw [List.getD_eq_getElem _ _ hi, hval, hsnd]
  · exact hkeep

/-- Minimum-distance property of the embedded `find_peaks`: two distinct
returned indices are at least `distance` bars apart. -/
theorem find_peaks_min_distance (x : List ℚ) (dst : Nat) (p q : Nat)
    (hp : p ∈ find_peaks x dst) (hq : q ∈ find_peaks x dst) (hne : p ≠ q) :
    dst ≤ ((p : Int) - (q : Int)).natAbs := by
  obtain ⟨a, ha, hpa, hka⟩ := mem_find_peaks_exists x dst p hp
  obtain ⟨b, hb, hqb, hkb⟩ := mem_find_peaks_exists x dst q hq
  have hab : a ≠ b := by
    intro heq
    subst heq
    rw [hpa] at hqb
    exact hne hqb
  have hmono := sorted_getD_mono (localMaxima x) (localMaxima_sorted x)
  have hspec := selectByPeakDistance_spec (localMaxima x)
    ((localMaxima x).map (getQ x)) dst hmono (List.length_map _ _)
    b a hb ha (Ne.symm hab) hkb hka
  rw [hpa, hqb] at hspec
  exact hspec

/-- C6: every pair of distinct same-kind extrema reported by the detector
(peaks of the close series, or troughs detected on the negated series) lies
at least 20 bars apart. -/
theorem c6_min_distance (x : List ℚ) (p q : Nat) :
    (p ∈ peaksOf x → q ∈ peaksOf x → p ≠ q → 20 ≤ ((p : Int) - (q : Int)).natAbs) ∧
    (p ∈ troughsOf x → q ∈ troughsOf x → p ≠ q →
      20 ≤ ((p : Int) - (q : Int)).natAbs) :=
  ⟨fun hp hq hne => find_peaks_min_distance x 20 p q hp hq hne,
   fun hp hq hne => find_peaks_min_distance (x.map Neg.neg) 20 p q hp hq hne⟩

/-- Witness for C6 at the synthetic fixture (peaks 10 and 30). -/
theorem c6_min_distance_witness : 20 ≤ (((10 : Nat) : Int) - ((30 : Nat) : Int)).natAbs :=
  (c6_min_distance closes52 10 30).1 (by decide) (by decide) (by decide)

end TechAnalysis
